import Mathlib

/-!
Verification of the `sorty` duplicate-file finder (`src/main.rs`).

The development shallowly embeds the duplicate-detection pipeline:

* `collect_files` — the traversal (`src/main.rs` lines 83-122), over an
  explicit filesystem tree (`Node`).
* `group_by_size` — size bucketing (lines 125-134), over a filesystem
  oracle `FS` giving each path its metadata size and content.
* `hash_file` — streamed content hashing (lines 173-185); the blake3
  digest is modelled by an abstract function `blake3 : Bytes → Digest`,
  the incremental hasher state by the accumulated byte list.
* `group_by_hash` — digest grouping within size buckets (lines 138-170).
* `run` — the composition performed by `main` (lines 14-42) together with
  the root-existence check of `parse_args` (lines 65-70).

Rust's `HashMap<K, Vec<V>>` is modelled as an association list
(`List (K × List V)`) whose per-key vectors grow by `push` at the end,
exactly like `map.entry(k).or_default().push(v)`; the unordered iteration
of a `HashMap` is modelled by quantifying over permutations of the
association list (`RunOf`).
-/

namespace Sorty

/-- Opaque file path (Rust `PathBuf`). -/
abbrev Path := String

/-- File content as a byte stream (`Vec<u8>` values read from disk). -/
abbrev Bytes := List Nat

/-- Filesystem oracle used by the bucketing/hashing pipeline:
`meta p` is `fs::metadata(p).len()` (`none` when the stat fails), and
`read p` is the full byte content obtained by `File::open` + `read`
(`none` when opening or reading fails). -/
structure FS where
  meta : Path → Option Nat
  read : Path → Option Bytes

section AssocMap

variable {κ α : Type} [DecidableEq κ]

/-- `map.entry(k).or_default().push(v)` on the association-list model of
`HashMap<K, Vec<V>>`: append `v` to the vector at key `k`, creating the
entry when absent. -/
def insertAssoc : List (κ × List α) → κ → α → List (κ × List α)
  | [], k, v => [(k, [v])]
  | (k', vs) :: rest, k, v =>
    if k = k' then (k', vs ++ [v]) :: rest else (k', vs) :: insertAssoc rest k v

/-- Vector stored at key `k` (empty when the key is absent). -/
def lookupG : List (κ × List α) → κ → List α
  | [], _ => []
  | (k', vs) :: rest, k => if k = k' then vs else lookupG rest k

/-- The common loop shape of `group_by_size` (lines 127-132) and of the
`hash_map` loop of `group_by_hash` (lines 150-160): fold over the items,
keying each by `key` and skipping the ones whose key is unavailable. -/
def groupFold (key : α → Option κ) (l : List α) : List (κ × List α) :=
  l.foldl (fun m x => match key x with | some k => insertAssoc m k x | none => m) []

theorem lookupG_insertAssoc_self (m : List (κ × List α)) (k : κ) (v : α) :
    lookupG (insertAssoc m k v) k = lookupG m k ++ [v] := by
  induction m with
  | nil => simp [insertAssoc, lookupG]
  | cons e rest ih =>
    obtain ⟨k', vs⟩ := e
    by_cases h : k = k'
    · simp [insertAssoc, lookupG, h]
    · simp [insertAssoc, lookupG, h, ih]

theorem lookupG_insertAssoc_ne (m : List (κ × List α)) {k k' : κ} (v : α) (h : k' ≠ k) :
    lookupG (insertAssoc m k v) k' = lookupG m k' := by
  induction m with
  | nil => simp [insertAssoc, lookupG, h]
  | cons e rest ih =>
    obtain ⟨k'', vs⟩ := e
    by_cases h2 : k = k''
    · subst h2
      simp [insertAssoc, lookupG, h]
    · by_cases h3 : k' = k''
      · simp [insertAssoc, lookupG, h2, h3]
      · simp [insertAssoc, lookupG, h2, h3, ih]

theorem keys_insertAssoc (m : List (κ × List α)) (k : κ) (v : α) :
    (insertAssoc m k v).map Prod.fst =
      if k ∈ m.map Prod.fst then m.map Prod.fst else m.map Prod.fst ++ [k] := by
  induction m with
  | nil => simp [insertAssoc]
  | cons e rest ih =>
    obtain ⟨k', vs⟩ := e
    by_cases h : k = k'
    · simp [insertAssoc, h]
    · simp only [insertAssoc, if_neg h, List.map_cons, ih, List.mem_cons]
      by_cases h2 : k ∈ rest.map Prod.fst
      · simp [h2, h]
      · simp [h2, h]

theorem keysNodup_insertAssoc {m : List (κ × List α)} (k : κ) (v : α)
    (h : (m.map Prod.fst).Nodup) : ((insertAssoc m k v).map Prod.fst).Nodup := by
  rw [keys_insertAssoc]
  by_cases hk : k ∈ m.map Prod.fst
  · simpa [hk]
  · simpa [hk, List.nodup_append] using h

theorem lookupG_mem {m : List (κ × List α)} {k : κ} (h : lookupG m k ≠ []) :
    (k, lookupG m k) ∈ m := by
  induction m with
  | nil => simp [lookupG] at h
  | cons e rest ih =>
    obtain ⟨k', vs⟩ := e
    by_cases h2 : k = k'
    · subst h2
      simp only [lookupG, if_pos rfl]
      exact List.mem_cons_self _ _
    · simp only [lookupG, if_neg h2] at h ⊢
      exact List.mem_cons_of_mem _ (ih h)

theorem entry_lookupG {m : List (κ × List α)} {k : κ} {vs : List α}
    (hnd : (m.map Prod.fst).Nodup) (h : (k, vs) ∈ m) : lookupG m k = vs := by
  induction m with
  | nil => simp at h
  | cons e rest ih =>
    obtain ⟨k', vs'⟩ := e
    rcases List.mem_cons.1 h with h1 | h1
    · obtain ⟨rfl, rfl⟩ := Prod.mk.inj h1
      simp [lookupG]
    · have hnd' : (k' :: rest.map Prod.fst).Nodup := by simpa using hnd
      have hk : k ≠ k' := by
        rintro rfl
        exact (List.nodup_cons.1 hnd').1 (List.mem_map.2 ⟨(k, vs), h1, rfl⟩)
      simp only [lookupG, if_neg hk]
      exact ih (List.nodup_cons.1 hnd').2 h1

theorem lookupG_groupFold_aux (key : α → Option κ) (l : List α) (k : κ) :
    ∀ m : List (κ × List α),
      lookupG (l.foldl (fun m x =>
          match key x with | some k' => insertAssoc m k' x | none => m) m) k =
        lookupG m k ++ l.filter (fun x => decide (key x = some k)) := by
  induction l with
  | nil => intro m; simp
  | cons x l ih =>
    intro m
    rw [List.foldl_cons, ih]
    cases hx : key x with
    | none => simp [hx]
    | some k' =>
      by_cases hk : k' = k
      · subst hk
        simp [hx, lookupG_insertAssoc_self, List.filter_cons]
      · have hne : ¬(key x = some k) := by
          rw [hx]
          exact fun hh => hk (Option.some.inj hh)
        simp only [hx]
        rw [lookupG_insertAssoc_ne m x (Ne.symm hk)]
        simp [List.filter_cons, hne]

/-- The vector that `groupFold` builds at key `k` is exactly the items whose
key is `k`, kept in input order. -/
theorem lookupG_groupFold (key : α → Option κ) (l : List α) (k : κ) :
    lookupG (groupFold key l) k = l.filter (fun x => decide (key x = some k)) := by
  simpa [lookupG] using lookupG_groupFold_aux key l k []

theorem keysNodup_groupFold (key : α → Option κ) (l : List α) :
    ((groupFold key l).map Prod.fst).Nodup := by
  suffices h : ∀ m : List (κ × List α), (m.map Prod.fst).Nodup →
      ((l.foldl (fun m x =>
          match key x with | some k' => insertAssoc m k' x | none => m) m).map Prod.fst).Nodup by
    exact h [] (by simp)
  induction l with
  | nil => intro m hm; simpa using hm
  | cons x l ih =>
    intro m hm
    rw [List.foldl_cons]
    cases hx : key x with
    | none => simpa [hx] using ih m hm
    | some k' => simpa [hx] using ih _ (keysNodup_insertAssoc k' x hm)

/-- Every entry of `groupFold` stores precisely the items keyed by its key. -/
theorem mem_groupFold_eq {key : α → Option κ} {l : List α} {k : κ} {vs : List α}
    (h : (k, vs) ∈ groupFold key l) :
    vs = l.filter (fun x => decide (key x = some k)) := by
  rw [← entry_lookupG (keysNodup_groupFold key l) h, lookupG_groupFold]

theorem mem_of_mem_groupFold {key : α → Option κ} {l : List α} {k : κ} {vs : List α}
    {x : α} (h : (k, vs) ∈ groupFold key l) (hx : x ∈ vs) :
    x ∈ l ∧ key x = some k := by
  rw [mem_groupFold_eq h] at hx
  have := List.of_mem_filter hx
  exact ⟨List.mem_of_mem_filter hx, by simpa using this⟩

/-- Converse: an item with key `k` lands in the entry at `k`. -/
theorem groupFold_complete {key : α → Option κ} {l : List α} {x : α} {k : κ}
    (hx : x ∈ l) (hk : key x = some k) :
    (k, l.filter (fun x => decide (key x = some k))) ∈ groupFold key l := by
  have hne : l.filter (fun x => decide (key x = some k)) ≠ [] := by
    intro h
    have : x ∈ l.filter (fun x => decide (key x = some k)) :=
      List.mem_filter.2 ⟨hx, by simp [hk]⟩
    simp [h] at this
  have := lookupG_mem (m := groupFold key l) (k := k)
    (by rwa [lookupG_groupFold])
  rwa [lookupG_groupFold] at this

end AssocMap

/-! ## Content hashing (`hash_file`, lines 173-185)

The loop reads the file through a fixed 8192-byte buffer and feeds each
chunk to the incremental hasher (`hasher.update(&buf[..n])`).  The hasher
state is modelled by the bytes accumulated so far; `finalize` applies the
abstract digest function `blake3` to the accumulated bytes.  `readLoop`'s
fuel argument only bounds the number of loop iterations (one more than the
content length always suffices, since every iteration on a non-empty
remainder consumes at least one byte). -/

/-- One `loop { let n = file.read(&mut buf)?; if n == 0 break; hasher.update(..) }`
iteration chain: `rem` is the unread remainder, `acc` the hasher state. -/
def readLoop : Nat → Bytes → Bytes → Bytes
  | 0, _, acc => acc
  | fuel + 1, rem, acc =>
    if rem = [] then acc else readLoop fuel (rem.drop 8192) (acc ++ rem.take 8192)

/-- Bytes accumulated in the hasher after streaming `content` through the
read loop. -/
def hasherLoop (content : Bytes) : Bytes :=
  readLoop (content.length + 1) content []

theorem readLoop_eq : ∀ (fuel : Nat) (rem acc : Bytes), rem.length < fuel →
    readLoop fuel rem acc = acc ++ rem := by
  intro fuel
  induction fuel with
  | zero => intro rem acc h; omega
  | succ fuel ih =>
    intro rem acc h
    by_cases hrem : rem = []
    · simp [readLoop, hrem]
    · rw [readLoop, if_neg hrem]
      have hlen : 0 < rem.length := List.length_pos.2 hrem
      have : (rem.drop 8192).length < fuel := by
        rw [List.length_drop]
        omega
      rw [ih _ _ this, List.append_assoc, List.take_append_drop]

/-- Streaming through the fixed-size buffer accumulates exactly the whole
content: the chunk size is not behavioural. -/
theorem hasherLoop_eq (content : Bytes) : hasherLoop content = content := by
  simpa [hasherLoop] using readLoop_eq (content.length + 1) content [] (by omega)

section Pipeline

variable {Digest : Type} [DecidableEq Digest]

/-- `hash_file` (lines 173-185): open and stream the file, finalizing the
incremental hasher; `none` models the `io::Result` error of `File::open`
or `read`. -/
def hash_file (blake3 : Bytes → Digest) (fs : FS) (p : Path) : Option Digest :=
  match fs.read p with
  | none => none
  | some content => some (blake3 (hasherLoop content))

omit [DecidableEq Digest] in
theorem hash_file_eq (blake3 : Bytes → Digest) (fs : FS) (p : Path) :
    hash_file blake3 fs p = (fs.read p).map blake3 := by
  cases h : fs.read p <;> simp [hash_file, h, hasherLoop_eq]

/-- `group_by_size` (lines 125-134): fold over the files, re-reading each
path's metadata and pushing it into the bucket of its size; a failing
`fs::metadata` drops the path (`if let Ok(meta)`). -/
def group_by_size (fs : FS) (files : List Path) : List (Nat × List Path) :=
  files.foldl (fun map p =>
    match fs.meta p with
    | some size => insertAssoc map size p
    | none => map) []

theorem group_by_size_eq (fs : FS) (files : List Path) :
    group_by_size fs files = groupFold fs.meta files := by
  unfold group_by_size groupFold
  congr 1
  funext m p
  cases fs.meta p <;> rfl

/-- `group_by_hash` (lines 138-170): for every size bucket with more than
one file, build the per-digest map (`hash_map`, lines 149-160; a failing
`hash_file` emits a warning and skips the file) and push every digest
vector with more than one member onto `groups`.  The `Result` return type
mirrors the Rust signature; the body only ever builds `Ok`. -/
def group_by_hash (blake3 : Bytes → Digest) (fs : FS)
    (size_buckets : List (Nat × List Path)) : Except String (List (List Path)) :=
  .ok (size_buckets.foldl
    (fun groups bucket =>
      if bucket.2.length ≤ 1 then groups
      else
        (groupFold (hash_file blake3 fs) bucket.2).foldl
          (fun gs hv => if 1 < hv.2.length then gs ++ [hv.2] else gs) groups)
    [])

/-- The groups emitted for a single size bucket, in first-digest-seen
order. -/
def bucketGroups (blake3 : Bytes → Digest) (fs : FS) (bucket : List Path) :
    List (List Path) :=
  ((groupFold (hash_file blake3 fs) bucket).filter
    (fun hv => decide (1 < hv.2.length))).map Prod.snd

/-- The groups of the whole pipeline stage, in canonical (insertion-order)
bucket iteration. -/
def groupsOf (blake3 : Bytes → Digest) (fs : FS)
    (size_buckets : List (Nat × List Path)) : List (List Path) :=
  ((size_buckets.filter (fun b => decide (1 < b.2.length))).map
    (fun b => bucketGroups blake3 fs b.2)).flatten

/-- Paths on which `group_by_hash` invokes `hash_file`: every member of
every bucket that survives the `bucket.len() <= 1` short-circuit
(lines 143-151). -/
def hashedPaths (size_buckets : List (Nat × List Path)) : List Path :=
  ((size_buckets.filter (fun b => decide (1 < b.2.length))).map Prod.snd).flatten

/-- Pruning the buckets of cardinality 1 from the size map (the
alternative implementation the spec allows). -/
def pruneSingletons (size_buckets : List (Nat × List Path)) :
    List (Nat × List Path) :=
  size_buckets.filter (fun b => decide (b.2.length ≠ 1))

/-- The labelling `print_report` performs on one group (lines 203-211):
member at index 0 is `original`, the rest are `duplicate`. -/
def groupLabels (g : List Path) : List (String × Path) :=
  g.enum.map (fun jp => (if jp.1 = 0 then "original" else "duplicate", jp.2))

theorem foldl_push_filter {α β : Type} (p : α → Prop) [DecidablePred p]
    (g : α → β) (l : List α) (init : List β) :
    l.foldl (fun acc x => if p x then acc ++ [g x] else acc) init =
      init ++ ((l.filter (fun x => decide (p x))).map g) := by
  induction l generalizing init with
  | nil => simp
  | cons x l ih =>
    by_cases hx : p x
    · simp [List.filter_cons, hx, ih]
    · simp [List.filter_cons, hx, ih]

theorem group_by_hash_foldl (blake3 : Bytes → Digest) (fs : FS)
    (sb : List (Nat × List Path)) (init : List (List Path)) :
    sb.foldl
      (fun groups bucket =>
        if bucket.2.length ≤ 1 then groups
        else
          (groupFold (hash_file blake3 fs) bucket.2).foldl
            (fun gs hv => if 1 < hv.2.length then gs ++ [hv.2] else gs) groups)
      init =
      init ++ ((sb.filter (fun b => decide (1 < b.2.length))).map
        (fun b => bucketGroups blake3 fs b.2)).flatten := by
  induction sb generalizing init with
  | nil => simp
  | cons b sb ih =>
    by_cases hb : b.2.length ≤ 1
    · have : ¬(1 < b.2.length) := by omega
      simp [List.filter_cons, hb, this, ih]
    · have h1 : 1 < b.2.length := by omega
      rw [List.foldl_cons, if_neg hb,
        foldl_push_filter (fun hv : Digest × List Path => 1 < hv.2.length) Prod.snd, ih]
      simp [List.filter_cons, h1, bucketGroups]

/-- `group_by_hash` always succeeds and its payload is `groupsOf`. -/
theorem group_by_hash_eq (blake3 : Bytes → Digest) (fs : FS)
    (sb : List (Nat × List Path)) :
    group_by_hash blake3 fs sb = .ok (groupsOf blake3 fs sb) := by
  rw [group_by_hash, group_by_hash_foldl]
  simp [groupsOf]

end Pipeline

/-! ## Traversal (`collect_files`, lines 83-122)

A filesystem subtree is an explicit `Node`.  `dir none` is a directory
whose metadata reads fine but whose `fs::read_dir` listing fails (the `?`
at line 87; a listing that fails partway through `entry_res?` at line 88
likewise aborts the call with `Err`, so both are modelled by the same
failing listing).  `badMeta` is an entry whose `entry.metadata()` fails
(line 90-93); `other` is a symlink/device/socket — statable but neither a
regular file nor a directory.  The model is a single consistent snapshot:
the `fs::metadata(path)?` re-stat of a single-file root (line 111)
succeeds with the size already seen by `is_file`. -/
inductive Node where
  | file (size : Nat)
  | dir (listing : Option (List (Path × Node)))
  | badMeta
  | other
deriving Repr

/-- The `for entry_res in fs::read_dir(path)?` loop body (lines 87-109),
including the dispatch that the recursive `collect_files(&p, recursive)?`
call (line 96) performs on each subdirectory: a directory entry whose own
listing fails makes the whole call return `Err`. -/
def collect_entries (recursive : Bool) : List (Path × Node) → Except Unit (List Path × List Path)
  | [] => .ok ([], [])
  | (p, n) :: rest =>
    let head : Except Unit (List Path × List Path) :=
      match n with
      | .badMeta => .ok ([], [])
      | .dir none => if recursive then .error () else .ok ([], [])
      | .dir (some sub) => if recursive then collect_entries recursive sub else .ok ([], [])
      | .file size => .ok (if size = 0 then ([], [p]) else ([p], []))
      | .other => .ok ([], [])
    match head with
    | .error e => .error e
    | .ok (hf, he) =>
      match collect_entries recursive rest with
      | .error e => .error e
      | .ok (rf, re) => .ok (hf ++ rf, he ++ re)

/-- `collect_files` (lines 83-122): dispatch on the root.  `dir none` is
the fatal root `read_dir` failure; a root that is neither a regular file
nor a directory falls into the `else` arm at lines 117-119 and yields
empty results. -/
def collect_files (recursive : Bool) (path : Path) (n : Node) :
    Except Unit (List Path × List Path) :=
  match n with
  | .dir none => .error ()
  | .dir (some entries) => collect_entries recursive entries
  | .file size => .ok (if size = 0 then ([], [path]) else ([path], []))
  | .badMeta => .ok ([], [])
  | .other => .ok ([], [])

/-- The regular-file entries (with their sizes) the traversal visits in a
listing, in visiting order. -/
def visitedEntries (recursive : Bool) : List (Path × Node) → List (Path × Nat)
  | [] => []
  | (p, n) :: rest =>
    (match n with
     | .file size => [(p, size)]
     | .dir (some sub) => if recursive then visitedEntries recursive sub else []
     | _ => []) ++ visitedEntries recursive rest

/-- The regular-file entries the whole traversal visits from the root. -/
def visitedFiles (recursive : Bool) (path : Path) : Node → List (Path × Nat)
  | .file size => [(path, size)]
  | .dir (some entries) => visitedEntries recursive entries
  | _ => []

/-- All directory listings the traversal will need succeed (the only
failure source `collect_entries` ever propagates). -/
def entriesOk (recursive : Bool) : List (Path × Node) → Bool
  | [] => true
  | (_, n) :: rest =>
    (match n with
     | .dir none => !recursive
     | .dir (some sub) => !recursive || entriesOk recursive sub
     | _ => true) && entriesOk recursive rest

/-- All directory listings reachable from the root succeed. -/
def listingsOk (recursive : Bool) : Node → Bool
  | .dir none => false
  | .dir (some entries) => entriesOk recursive entries
  | _ => true

/-- `Path::exists()` as checked by `parse_args` (line 66): false for a
missing path and for a path whose stat fails. -/
def pathExists : Option Node → Bool
  | none => false
  | some .badMeta => false
  | some _ => true

/-- `main` (lines 14-42) composed with the root-existence check of
`parse_args` (lines 65-70): traverse, early-return an empty report when no
non-empty file was found, otherwise bucket by size and group by hash.
The result pairs the duplicate groups with the empty-file list handed to
`print_report`. -/
def run {Digest : Type} [DecidableEq Digest] (blake3 : Bytes → Digest) (fs : FS)
    (recursive : Bool) (rootPath : Path) (root : Option Node) :
    Except Unit (List (List Path) × List Path) :=
  match root with
  | none => .error ()
  | some .badMeta => .error ()
  | some n =>
    match collect_files recursive rootPath n with
    | .error e => .error e
    | .ok (files, empty_files) =>
      if files.isEmpty then .ok ([], empty_files)
      else
        match group_by_hash blake3 fs (group_by_size fs files) with
        | .error _ => .error ()
        | .ok groups => .ok (groups, empty_files)

/-! ## Pipeline lemmas -/

section PipelineLemmas

variable {Digest : Type} [DecidableEq Digest]

/-- Characterization of the emitted groups: `g` is emitted iff it is a
digest entry of cardinality > 1 of some size bucket of cardinality > 1. -/
theorem mem_groupsOf {blake3 : Bytes → Digest} {fs : FS}
    {sb : List (Nat × List Path)} {g : List Path} :
    g ∈ groupsOf blake3 fs sb ↔
      ∃ s b, (s, b) ∈ sb ∧ 1 < b.length ∧ 1 < g.length ∧
        ∃ h, (h, g) ∈ groupFold (hash_file blake3 fs) b := by
  constructor
  · intro hg
    rw [groupsOf, List.mem_flatten] at hg
    obtain ⟨l, hl, hgl⟩ := hg
    rw [List.mem_map] at hl
    obtain ⟨b, hb, rfl⟩ := hl
    rw [List.mem_filter] at hb
    rw [bucketGroups, List.mem_map] at hgl
    obtain ⟨hv, hhv, rfl⟩ := hgl
    rw [List.mem_filter] at hhv
    exact ⟨b.1, b.2, hb.1, by simpa using hb.2, by simpa using hhv.2, hv.1, hhv.1⟩
  · rintro ⟨s, b, hb, hlen, hglen, h, hg⟩
    rw [groupsOf, List.mem_flatten]
    refine ⟨bucketGroups blake3 fs b, ?_, ?_⟩
    · exact List.mem_map.2 ⟨(s, b), List.mem_filter.2 ⟨hb, by simpa using hlen⟩, rfl⟩
    · exact List.mem_map.2 ⟨(h, g), List.mem_filter.2 ⟨hg, by simpa using hglen⟩, rfl⟩

/-- Every size bucket is the traversal-ordered filter of the input by its
size. -/
theorem bucket_eq_filter {fs : FS} {files : List Path} {s : Nat} {b : List Path}
    (hb : (s, b) ∈ group_by_size fs files) :
    b = files.filter (fun p => decide (fs.meta p = some s)) := by
  rw [group_by_size_eq] at hb
  exact mem_groupFold_eq hb

theorem mem_files_of_mem_bucket {fs : FS} {files : List Path} {s : Nat}
    {b : List Path} {p : Path} (hb : (s, b) ∈ group_by_size fs files)
    (hp : p ∈ b) : p ∈ files ∧ fs.meta p = some s := by
  rw [group_by_size_eq] at hb
  exact mem_of_mem_groupFold hb hp

/-- Every member of an emitted group is an input file, and the group fixes
its size and digest. -/
theorem mem_group_facts {blake3 : Bytes → Digest} {fs : FS} {files : List Path}
    {g : List Path} {p : Path}
    (hg : g ∈ groupsOf blake3 fs (group_by_size fs files)) (hp : p ∈ g) :
    ∃ s h, p ∈ files ∧ fs.meta p = some s ∧ hash_file blake3 fs p = some h := by
  obtain ⟨s, b, hb, -, -, h, hfold⟩ := mem_groupsOf.1 hg
  obtain ⟨hpb, hhash⟩ := mem_of_mem_groupFold hfold hp
  obtain ⟨hpf, hmeta⟩ := mem_files_of_mem_bucket hb hpb
  exact ⟨s, h, hpf, hmeta, hhash⟩

/-- `hash_file` is only invoked on input files. -/
theorem hashedPaths_subset {fs : FS} {files : List Path} {p : Path}
    (hp : p ∈ hashedPaths (group_by_size fs files)) : p ∈ files := by
  rw [hashedPaths, List.mem_flatten] at hp
  obtain ⟨l, hl, hpl⟩ := hp
  rw [List.mem_map] at hl
  obtain ⟨b, hb, rfl⟩ := hl
  rw [List.mem_filter] at hb
  exact (mem_files_of_mem_bucket hb.1 hpl).1

theorem one_lt_length_of_two_mem {l : List Path} {a b : Path}
    (ha : a ∈ l) (hb : b ∈ l) (hab : a ≠ b) : 1 < l.length := by
  match l with
  | [] => simp at ha
  | [x] =>
    rw [List.mem_singleton] at ha hb
    exact absurd (ha.trans hb.symm) hab
  | x :: y :: t => simp [List.length_cons]

end PipelineLemmas

/-! ## Traversal lemmas -/

theorem collect_entries_isOk (recursive : Bool) (es : List (Path × Node))
    (h : entriesOk recursive es = true) :
    (collect_entries recursive es).isOk = true := by
  match es with
  | [] => simp [collect_entries, Except.isOk, Except.toBool]
  | (p, n) :: rest =>
    match n with
    | .badMeta =>
      have hrest : entriesOk recursive rest = true := by simpa [entriesOk] using h
      have hr := collect_entries_isOk recursive rest hrest
      obtain ⟨⟨rf, re⟩, hr⟩ : ∃ v, collect_entries recursive rest = .ok v := by
        cases hrv : collect_entries recursive rest with
        | error e => rw [hrv] at hr; simp [Except.isOk, Except.toBool] at hr
        | ok v => exact ⟨v, rfl⟩
      simp [collect_entries, hr, Except.isOk, Except.toBool]
    | .other =>
      have hrest : entriesOk recursive rest = true := by simpa [entriesOk] using h
      have hr := collect_entries_isOk recursive rest hrest
      obtain ⟨⟨rf, re⟩, hr⟩ : ∃ v, collect_entries recursive rest = .ok v := by
        cases hrv : collect_entries recursive rest with
        | error e => rw [hrv] at hr; simp [Except.isOk, Except.toBool] at hr
        | ok v => exact ⟨v, rfl⟩
      simp [collect_entries, hr, Except.isOk, Except.toBool]
    | .file size =>
      have hrest : entriesOk recursive rest = true := by simpa [entriesOk] using h
      have hr := collect_entries_isOk recursive rest hrest
      obtain ⟨⟨rf, re⟩, hr⟩ : ∃ v, collect_entries recursive rest = .ok v := by
        cases hrv : collect_entries recursive rest with
        | error e => rw [hrv] at hr; simp [Except.isOk, Except.toBool] at hr
        | ok v => exact ⟨v, rfl⟩
      by_cases hz : size = 0
      · simp [collect_entries, hr, hz, Except.isOk, Except.toBool]
      · simp [collect_entries, hr, hz, Except.isOk, Except.toBool]
    | .dir none =>
      have h' : (!recursive) = true ∧ entriesOk recursive rest = true := by
        simpa [entriesOk] using h
      obtain ⟨hn, hrest⟩ := h'
      have hrec : recursive = false := by simpa using hn
      subst hrec
      have hr := collect_entries_isOk false rest hrest
      obtain ⟨⟨rf, re⟩, hr⟩ : ∃ v, collect_entries false rest = .ok v := by
        cases hrv : collect_entries false rest with
        | error e => rw [hrv] at hr; simp [Except.isOk, Except.toBool] at hr
        | ok v => exact ⟨v, rfl⟩
      simp [collect_entries, hr, Except.isOk, Except.toBool]
    | .dir (some sub) =>
      have h' : (!recursive || entriesOk recursive sub) = true ∧
          entriesOk recursive rest = true := by
        simpa [entriesOk] using h
      obtain ⟨hn, hrest⟩ := h'
      have hr := collect_entries_isOk recursive rest hrest
      obtain ⟨⟨rf, re⟩, hr⟩ : ∃ v, collect_entries recursive rest = .ok v := by
        cases hrv : collect_entries recursive rest with
        | error e => rw [hrv] at hr; simp [Except.isOk, Except.toBool] at hr
        | ok v => exact ⟨v, rfl⟩
      cases recursive with
      | false =>
        simp [collect_entries, hr, Except.isOk, Except.toBool]
      | true =>
        have hsub : entriesOk true sub = true := by simpa using hn
        have hs := collect_entries_isOk true sub hsub
        obtain ⟨⟨sf, se⟩, hs⟩ : ∃ v, collect_entries true sub = .ok v := by
          cases hsv : collect_entries true sub with
          | error e => rw [hsv] at hs; simp [Except.isOk, Except.toBool] at hs
          | ok v => exact ⟨v, rfl⟩
        simp [collect_entries, hr, hs, Except.isOk, Except.toBool]
termination_by sizeOf es

/-- A zero-length regular file visited by the loop ends up in the
empty-file list. -/
theorem visited_zero_mem_empties (recursive : Bool) (es : List (Path × Node))
    (files empties : List Path)
    (h : collect_entries recursive es = .ok (files, empties)) (p : Path)
    (hp : (p, 0) ∈ visitedEntries recursive es) : p ∈ empties := by
  match es with
  | [] =>
    rw [visitedEntries] at hp
    simp at hp
  | (q, n) :: rest =>
    match n with
    | .badMeta =>
      simp only [collect_entries] at h
      cases hrv : collect_entries recursive rest with
      | error e => rw [hrv] at h; exact absurd h (by simp)
      | ok v =>
        obtain ⟨rf, re⟩ := v
        rw [hrv] at h
        obtain ⟨rfl, rfl⟩ : rf = files ∧ re = empties := by simpa using h
        have hp' : (p, 0) ∈ visitedEntries recursive rest := by
          simpa [visitedEntries] using hp
        exact visited_zero_mem_empties recursive rest rf re hrv p hp'
    | .other =>
      simp only [collect_entries] at h
      cases hrv : collect_entries recursive rest with
      | error e => rw [hrv] at h; exact absurd h (by simp)
      | ok v =>
        obtain ⟨rf, re⟩ := v
        rw [hrv] at h
        obtain ⟨rfl, rfl⟩ : rf = files ∧ re = empties := by simpa using h
        have hp' : (p, 0) ∈ visitedEntries recursive rest := by
          simpa [visitedEntries] using hp
        exact visited_zero_mem_empties recursive rest rf re hrv p hp'
    | .file size =>
      by_cases hz : size = 0
      · subst hz
        simp only [collect_entries, if_pos rfl] at h
        cases hrv : collect_entries recursive rest with
        | error e => rw [hrv] at h; exact absurd h (by simp)
        | ok v =>
          obtain ⟨rf, re⟩ := v
          rw [hrv] at h
          obtain ⟨rfl, rfl⟩ : rf = files ∧ q :: re = empties := by simpa using h
          have hp' : (p, 0) ∈ ([(q, 0)] : List (Path × Nat)) ∨
              (p, 0) ∈ visitedEntries recursive rest := by
            simpa [visitedEntries] using hp
          rcases hp' with hp' | hp'
          · have : p = q := by simpa using hp'
            exact this ▸ List.mem_cons_self q re
          · exact List.mem_cons_of_mem q
              (visited_zero_mem_empties recursive rest rf re hrv p hp')
      · simp only [collect_entries, if_neg hz] at h
        cases hrv : collect_entries recursive rest with
        | error e => rw [hrv] at h; exact absurd h (by simp)
        | ok v =>
          obtain ⟨rf, re⟩ := v
          rw [hrv] at h
          obtain ⟨rfl, rfl⟩ : q :: rf = files ∧ re = empties := by simpa using h
          have hp' : (p, 0) ∈ ([(q, size)] : List (Path × Nat)) ∨
              (p, 0) ∈ visitedEntries recursive rest := by
            simpa [visitedEntries] using hp
          rcases hp' with hp' | hp'
          · have hpq : p = q ∧ 0 = size := by simpa using hp'
            exact absurd hpq.2.symm hz
          · exact visited_zero_mem_empties recursive rest rf re hrv p hp'
    | .dir none =>
      cases recursive with
      | true =>
        simp only [collect_entries] at h
        exact absurd h (by simp)
      | false =>
        simp only [collect_entries] at h
        cases hrv : collect_entries false rest with
        | error e => rw [hrv] at h; exact absurd h (by simp)
        | ok v =>
          obtain ⟨rf, re⟩ := v
          rw [hrv] at h
          obtain ⟨rfl, rfl⟩ : rf = files ∧ re = empties := by simpa using h
          have hp' : (p, 0) ∈ visitedEntries false rest := by
            simpa [visitedEntries] using hp
          exact visited_zero_mem_empties false rest rf re hrv p hp'
    | .dir (some sub) =>
      cases recursive with
      | true =>
        simp only [collect_entries, if_true] at h
        cases hsv : collect_entries true sub with
        | error e => rw [hsv] at h; exact absurd h (by simp)
        | ok sv =>
          obtain ⟨sf, se⟩ := sv
          rw [hsv] at h
          cases hrv : collect_entries true rest with
          | error e => rw [hrv] at h; exact absurd h (by simp)
          | ok v =>
            obtain ⟨rf, re⟩ := v
            rw [hrv] at h
            obtain ⟨rfl, rfl⟩ : sf ++ rf = files ∧ se ++ re = empties := by
              simpa using h
            have hp' : (p, 0) ∈ visitedEntries true sub ∨
                (p, 0) ∈ visitedEntries true rest := by
              simpa [visitedEntries] using hp
            rcases hp' with hp' | hp'
            · exact List.mem_append.2
                (Or.inl (visited_zero_mem_empties true sub sf se hsv p hp'))
            · exact List.mem_append.2
                (Or.inr (visited_zero_mem_empties true rest rf re hrv p hp'))
      | false =>
        simp only [collect_entries, if_false] at h
        cases hrv : collect_entries false rest with
        | error e => rw [hrv] at h; exact absurd h (by simp)
        | ok v =>
          obtain ⟨rf, re⟩ := v
          rw [hrv] at h
          obtain ⟨rfl, rfl⟩ : rf = files ∧ re = empties := by simpa using h
          have hp' : (p, 0) ∈ visitedEntries false rest := by
            simpa [visitedEntries] using hp
          exact visited_zero_mem_empties false rest rf re hrv p hp'
termination_by sizeOf es

/-! ## Unordered-map iteration

`group_by_hash` iterates both the size map (line 143) and each per-bucket
digest map (line 162) in `HashMap` order, which is unspecified.  A `run`
iterates the size map's entries in some permutation of their contents and,
for each surviving bucket, emits that bucket's qualifying digest groups in
some permutation. -/

section RunOrder

variable {Digest : Type} [DecidableEq Digest]

/-- `out` is a possible output of the `group_by_hash` loops on the size
map `sm` under some iteration order of the two unordered maps. -/
def RunOf (blake3 : Bytes → Digest) (fs : FS) (sm : List (Nat × List Path))
    (out : List (List Path)) : Prop :=
  ∃ (sm' : List (Nat × List Path)) (parts : List (List (List Path))),
    sm.Perm sm' ∧
    List.Forall₂ (fun b part => (bucketGroups blake3 fs b.2).Perm part)
      (sm'.filter (fun b => decide (1 < b.2.length))) parts ∧
    out = parts.flatten

/-- Any run's output is a permutation of the canonical-order output. -/
theorem runOf_perm_groupsOf {blake3 : Bytes → Digest} {fs : FS}
    {sm : List (Nat × List Path)} {out : List (List Path)}
    (h : RunOf blake3 fs sm out) : out.Perm (groupsOf blake3 fs sm) := by
  obtain ⟨sm', parts, hsm, hf2, rfl⟩ := h
  have h1 : ((sm'.filter (fun b => decide (1 < b.2.length))).map
      (fun b => bucketGroups blake3 fs b.2)).flatten.Perm parts.flatten := by
    apply List.Perm.flatten_congr
    rw [List.forall₂_map_left_iff]
    exact hf2
  have h2 : ((sm.filter (fun b => decide (1 < b.2.length))).map
      (fun b => bucketGroups blake3 fs b.2)).flatten.Perm
      ((sm'.filter (fun b => decide (1 < b.2.length))).map
        (fun b => bucketGroups blake3 fs b.2)).flatten :=
    ((hsm.filter _).map _).flatten
  rw [groupsOf]
  exact h1.symm.trans h2.symm

/-- The canonical-order output is itself a possible run. -/
theorem runOf_groupsOf (blake3 : Bytes → Digest) (fs : FS)
    (sm : List (Nat × List Path)) :
    RunOf blake3 fs sm (groupsOf blake3 fs sm) := by
  refine ⟨sm, (sm.filter (fun b => decide (1 < b.2.length))).map
    (fun b => bucketGroups blake3 fs b.2), List.Perm.refl sm, ?_, by rw [groupsOf]⟩
  rw [List.forall₂_map_right_iff]
  exact List.forall₂_same.2 fun b _ => List.Perm.refl _

end RunOrder

theorem groupLabels_cons (p : Path) (rest : List Path) :
    groupLabels (p :: rest) =
      ("original", p) :: rest.map (fun q => ("duplicate", q)) := by
  rw [groupLabels, List.enum_cons]
  simp only [List.map_cons, if_pos rfl]
  have key : ∀ (k : Nat) (l : List Path), k ≠ 0 →
      (List.enumFrom k l).map
        (fun jp => (if jp.1 = 0 then "original" else "duplicate", jp.2)) =
        l.map (fun q => ("duplicate", q)) := by
    intro k l
    induction l generalizing k with
    | nil => intro _; simp
    | cons x l ih =>
      intro hk
      simp only [List.enumFrom, List.map_cons, if_neg hk]
      rw [ih (k + 1) (by omega)]
  rw [key 1 rest one_ne_zero]
  simp

/-! ## Witness fixtures: small concrete filesystems.

The digest type is instantiated with `Bytes` itself and `blake3` with
`id`, a trivially injective digest function. -/

/-- Contents: `a` and `b` are 1-byte duplicates, `c` is a 1-byte
non-duplicate, `x` is a unique 2-byte file; everything else fails to
read. -/
def wread : Path → Option Bytes := fun p =>
  if p = "a" ∨ p = "b" then some [7]
  else if p = "c" then some [8]
  else if p = "x" then some [1, 2]
  else none

/-- Oracle whose metadata size always agrees with the content length. -/
def wfs : FS := ⟨fun p => (wread p).map List.length, wread⟩

theorem wfs_coherent : ∀ p c, wfs.read p = some c → wfs.meta p = some c.length := by
  intro p c h
  have h' : wread p = some c := h
  show (wread p).map List.length = some c.length
  rw [h']
  rfl

/-- Two duplicate pairs of different sizes: `a`/`b` (1 byte) and `d`/`e`
(2 bytes). -/
def w2read : Path → Option Bytes := fun p =>
  if p = "a" ∨ p = "b" then some [5]
  else if p = "d" ∨ p = "e" then some [6, 6]
  else none

def wfs2 : FS := ⟨fun p => (w2read p).map List.length, w2read⟩

/-- Oracle on which every stat and every read fails. -/
def fsNone : FS := ⟨fun _ => none, fun _ => none⟩

/-! ## Claims -/

/-- C10: the content grouping stage never fails: `group_by_hash` always
returns `Ok` (its payload being the canonical group list), and a file
whose read fails is excluded from every group rather than raising an
error. -/
theorem claim_C10 {Digest : Type} [DecidableEq Digest] (blake3 : Bytes → Digest)
    (fs : FS) (sb : List (Nat × List Path)) (p : Path) (hp : fs.read p = none) :
    group_by_hash blake3 fs sb = .ok (groupsOf blake3 fs sb) ∧
      ∀ g ∈ groupsOf blake3 fs sb, p ∉ g := by
  refine ⟨group_by_hash_eq blake3 fs sb, ?_⟩
  intro g hg hpg
  obtain ⟨s, b, hb, hblen, hglen, h, hfold⟩ := mem_groupsOf.1 hg
  have hh := (mem_of_mem_groupFold hfold hpg).2
  rw [hash_file_eq, hp] at hh
  simp at hh

theorem claim_C10_witness :
    fsNone.read "q" = none ∧
      (group_by_hash (id : Bytes → Bytes) fsNone [(1, ["a", "b"])] =
        .ok (groupsOf (id : Bytes → Bytes) fsNone [(1, ["a", "b"])]) ∧
      ∀ g ∈ groupsOf (id : Bytes → Bytes) fsNone [(1, ["a", "b"])], "q" ∉ g) :=
  ⟨rfl, claim_C10 id fsNone [(1, ["a", "b"])] "q" rfl⟩

/-- C8: every emitted duplicate group has at least two members, and all
its members come from one size bucket, hence share one metadata size. -/
theorem claim_C8 {Digest : Type} [DecidableEq Digest] (blake3 : Bytes → Digest)
    (fs : FS) (files : List Path) (g : List Path)
    (hg : g ∈ groupsOf blake3 fs (group_by_size fs files)) :
    2 ≤ g.length ∧ ∃ s b, (s, b) ∈ group_by_size fs files ∧ 1 < b.length ∧
      (∀ p ∈ g, p ∈ b) ∧ ∀ p ∈ g, fs.meta p = some s := by
  obtain ⟨s, b, hb, hblen, hglen, h, hfold⟩ := mem_groupsOf.1 hg
  refine ⟨hglen, s, b, hb, hblen, ?_, ?_⟩
  · intro p hp
    exact (mem_of_mem_groupFold hfold hp).1
  · intro p hp
    exact (mem_files_of_mem_bucket hb (mem_of_mem_groupFold hfold hp).1).2

theorem claim_C8_witness :
    ["a", "b"] ∈ groupsOf (id : Bytes → Bytes) wfs
        (group_by_size wfs ["a", "b", "c", "x"]) ∧
      (2 ≤ (["a", "b"] : List Path).length ∧
        ∃ s b, (s, b) ∈ group_by_size wfs ["a", "b", "c", "x"] ∧ 1 < b.length ∧
          (∀ p ∈ (["a", "b"] : List Path), p ∈ b) ∧
          ∀ p ∈ (["a", "b"] : List Path), wfs.meta p = some s) :=
  ⟨by decide, claim_C8 id wfs ["a", "b", "c", "x"] ["a", "b"] (by decide)⟩

theorem mem_bucketGroups {Digest : Type} [DecidableEq Digest]
    {blake3 : Bytes → Digest} {fs : FS} {b g : List Path}
    (hg : g ∈ bucketGroups blake3 fs b) :
    ∃ h, (h, g) ∈ groupFold (hash_file blake3 fs) b := by
  rw [bucketGroups, List.mem_map] at hg
  obtain ⟨hv, hhv, rfl⟩ := hg
  exact ⟨hv.1, (List.mem_filter.1 hhv).1⟩

/-- C9: the duplicate groups are pairwise disjoint — no path is a member
of two different emitted groups.  (The proof does not even need the
distinctness hypothesis: a path determines its metadata size and its
digest, and both maps have unique keys.) -/
theorem claim_C9 {Digest : Type} [DecidableEq Digest] (blake3 : Bytes → Digest)
    (fs : FS) (files : List Path) (_hnd : files.Nodup) :
    (groupsOf blake3 fs (group_by_size fs files)).Pairwise
      (fun g₁ g₂ => ∀ p ∈ g₁, p ∉ g₂) := by
  rw [groupsOf, List.pairwise_flatten]
  constructor
  · -- within one bucket: distinct digest keys give disjoint groups
    intro l hl
    rw [List.mem_map] at hl
    obtain ⟨bkt, hbkt, rfl⟩ := hl
    have hkeys : (groupFold (hash_file blake3 fs) bkt.2).Pairwise
        (fun e₁ e₂ => e₁.1 ≠ e₂.1) := by
      have := keysNodup_groupFold (hash_file blake3 fs) bkt.2
      rwa [List.Nodup, List.pairwise_map] at this
    rw [bucketGroups, List.pairwise_map]
    refine (hkeys.filter _).imp_of_mem ?_
    intro e₁ e₂ he₁ he₂ hne p hp₁ hp₂
    have h₁ := (mem_of_mem_groupFold (List.mem_of_mem_filter he₁) hp₁).2
    have h₂ := (mem_of_mem_groupFold (List.mem_of_mem_filter he₂) hp₂).2
    exact hne (Option.some.inj (h₁.symm.trans h₂))
  · -- across buckets: distinct size keys give disjoint group families
    have hkeys : (group_by_size fs files).Pairwise
        (fun e₁ e₂ => e₁.1 ≠ e₂.1) := by
      have := keysNodup_groupFold fs.meta files
      rw [List.Nodup, List.pairwise_map] at this
      rwa [group_by_size_eq]
    rw [List.pairwise_map]
    refine (hkeys.filter _).imp_of_mem ?_
    intro b₁ b₂ hb₁ hb₂ hne g₁ hg₁ g₂ hg₂ p hp₁ hp₂
    obtain ⟨h₁, hf₁⟩ := mem_bucketGroups hg₁
    obtain ⟨h₂, hf₂⟩ := mem_bucketGroups hg₂
    have hm₁ := (mem_files_of_mem_bucket (List.mem_of_mem_filter hb₁)
      (mem_of_mem_groupFold hf₁ hp₁).1).2
    have hm₂ := (mem_files_of_mem_bucket (List.mem_of_mem_filter hb₂)
      (mem_of_mem_groupFold hf₂ hp₂).1).2
    exact hne (Option.some.inj (hm₁.symm.trans hm₂))

theorem claim_C9_witness :
    (["a", "b", "c", "x"] : List Path).Nodup ∧
      (groupsOf (id : Bytes → Bytes) wfs
        (group_by_size wfs ["a", "b", "c", "x"])).Pairwise
        (fun g₁ g₂ => ∀ p ∈ g₁, p ∉ g₂) :=
  ⟨by decide, claim_C9 id wfs ["a", "b", "c", "x"] (by decide)⟩

/-- C6: a file of unique size (its bucket is a singleton) is never passed
to `hash_file`, and pruning singleton buckets from the size map before
grouping leaves `group_by_hash`'s output unchanged. -/
theorem claim_C6 {Digest : Type} [DecidableEq Digest] (blake3 : Bytes → Digest)
    (fs : FS) (files : List Path) (s : Nat) (p : Path)
    (hb : (s, [p]) ∈ group_by_size fs files) :
    p ∉ hashedPaths (group_by_size fs files) ∧
      ∀ sb : List (Nat × List Path),
        group_by_hash blake3 fs (pruneSingletons sb) = group_by_hash blake3 fs sb := by
  constructor
  · intro hph
    rw [hashedPaths, List.mem_flatten] at hph
    obtain ⟨l, hl, hpl⟩ := hph
    rw [List.mem_map] at hl
    obtain ⟨b', hb', rfl⟩ := hl
    rw [List.mem_filter] at hb'
    obtain ⟨hb'm, hb'len⟩ := hb'
    obtain ⟨s', bb⟩ := b'
    -- the size of `p` pins both entries to the same key, which is unique
    have hms : fs.meta p = some s := by
      rw [group_by_size_eq] at hb
      exact (mem_of_mem_groupFold hb (List.mem_singleton.2 rfl)).2
    have hms' : fs.meta p = some s' :=
      (mem_files_of_mem_bucket hb'm hpl).2
    have hss : s' = s := Option.some.inj (hms'.symm.trans hms)
    subst hss
    have hnd := keysNodup_groupFold fs.meta files
    rw [group_by_size_eq] at hb hb'm
    have h1 := entry_lookupG hnd hb
    have h2 := entry_lookupG hnd hb'm
    rw [h1] at h2
    rw [← h2] at hb'len
    simp at hb'len
  · intro sb
    have hfilter : (pruneSingletons sb).filter (fun b => decide (1 < b.2.length)) =
        sb.filter (fun b => decide (1 < b.2.length)) := by
      rw [pruneSingletons, List.filter_filter]
      apply List.filter_congr
      intro b _
      by_cases h : 1 < b.2.length
      · have hne : b.2.length ≠ 1 := by omega
        simp [h, hne]
      · simp [h]
    rw [group_by_hash_eq, group_by_hash_eq, groupsOf, groupsOf, hfilter]

theorem claim_C6_witness :
    (2, ["x"]) ∈ group_by_size wfs ["a", "b", "c", "x"] ∧
      ("x" ∉ hashedPaths (group_by_size wfs ["a", "b", "c", "x"]) ∧
      ∀ sb : List (Nat × List Path),
        group_by_hash (id : Bytes → Bytes) wfs (pruneSingletons sb) =
          group_by_hash (id : Bytes → Bytes) wfs sb) :=
  ⟨by decide, claim_C6 id wfs ["a", "b", "c", "x"] 2 "x" (by decide)⟩

/-- C5: each emitted group lists its members in traversal order (it is an
order-preserving sublist of the input file list), and the report labels
its first member `original` and every later member `duplicate`. -/
theorem claim_C5 {Digest : Type} [DecidableEq Digest] (blake3 : Bytes → Digest)
    (fs : FS) (files : List Path) (g : List Path)
    (hg : g ∈ groupsOf blake3 fs (group_by_size fs files)) :
    g.Sublist files ∧ ∃ p rest, g = p :: rest ∧
      groupLabels g = ("original", p) :: rest.map (fun q => ("duplicate", q)) := by
  obtain ⟨s, b, hb, hblen, hglen, h, hfold⟩ := mem_groupsOf.1 hg
  have hgb := mem_groupFold_eq hfold
  have hsub1 : g.Sublist b := by
    rw [hgb]
    exact List.filter_sublist b
  have hbf := bucket_eq_filter hb
  have hsub2 : b.Sublist files := by
    rw [hbf]
    exact List.filter_sublist files
  refine ⟨hsub1.trans hsub2, ?_⟩
  cases g with
  | nil => simp at hglen
  | cons p rest => exact ⟨p, rest, rfl, groupLabels_cons p rest⟩

theorem claim_C5_witness :
    ["a", "b"] ∈ groupsOf (id : Bytes → Bytes) wfs
        (group_by_size wfs ["a", "b", "c", "x"]) ∧
      ((["a", "b"] : List Path).Sublist ["a", "b", "c", "x"] ∧
        ∃ p rest, (["a", "b"] : List Path) = p :: rest ∧
          groupLabels ["a", "b"] =
            ("original", p) :: rest.map (fun q => ("duplicate", q))) :=
  ⟨by decide, claim_C5 id wfs ["a", "b", "c", "x"] ["a", "b"] (by decide)⟩

/-- C1: on a snapshot filesystem (metadata size agrees with content
length) and with an injective digest (hash collisions impossible), two
distinct readable non-empty files with identical content always share a
duplicate group, and two files with different contents never do — even
when their sizes coincide. -/
theorem claim_C1 {Digest : Type} [DecidableEq Digest] (blake3 : Bytes → Digest)
    (hinj : Function.Injective blake3) (fs : FS)
    (hco : ∀ p c, fs.read p = some c → fs.meta p = some c.length)
    (files : List Path) (a b : Path) (ha : a ∈ files) (hb : b ∈ files)
    (hab : a ≠ b) (ca cb : Bytes) (hra : fs.read a = some ca)
    (hrb : fs.read b = some cb) (_hne0 : ca ≠ []) :
    (ca = cb →
      ∃ g ∈ groupsOf blake3 fs (group_by_size fs files), a ∈ g ∧ b ∈ g) ∧
    (ca ≠ cb →
      ∀ g ∈ groupsOf blake3 fs (group_by_size fs files), ¬(a ∈ g ∧ b ∈ g)) := by
  constructor
  · intro hcc
    have hma : fs.meta a = some ca.length := hco a ca hra
    have hmb : fs.meta b = some ca.length := by
      rw [hco b cb hrb, hcc]
    have hha : hash_file blake3 fs a = some (blake3 ca) := by
      rw [hash_file_eq, hra, Option.map_some']
    have hhb : hash_file blake3 fs b = some (blake3 ca) := by
      rw [hash_file_eq, hrb, Option.map_some', hcc]
    set bucket := files.filter (fun p => decide (fs.meta p = some ca.length)) with hbdef
    have haB : a ∈ bucket := List.mem_filter.2 ⟨ha, by simp [hma]⟩
    have hbB : b ∈ bucket := List.mem_filter.2 ⟨hb, by simp [hmb]⟩
    have hlook : lookupG (groupFold fs.meta files) ca.length = bucket :=
      lookupG_groupFold fs.meta files ca.length
    have hbmem : (ca.length, bucket) ∈ group_by_size fs files := by
      rw [group_by_size_eq, ← hlook]
      exact lookupG_mem (by rw [hlook]; exact List.ne_nil_of_mem haB)
    set v := bucket.filter
      (fun p => decide (hash_file blake3 fs p = some (blake3 ca))) with hvdef
    have haV : a ∈ v := List.mem_filter.2 ⟨haB, by simp [hha]⟩
    have hbV : b ∈ v := List.mem_filter.2 ⟨hbB, by simp [hhb]⟩
    have hvlook : lookupG (groupFold (hash_file blake3 fs) bucket) (blake3 ca) = v :=
      lookupG_groupFold (hash_file blake3 fs) bucket (blake3 ca)
    have hvmem : (blake3 ca, v) ∈ groupFold (hash_file blake3 fs) bucket := by
      rw [← hvlook]
      exact lookupG_mem (by rw [hvlook]; exact List.ne_nil_of_mem haV)
    refine ⟨v, mem_groupsOf.2 ⟨ca.length, bucket, hbmem,
      one_lt_length_of_two_mem haB hbB hab,
      one_lt_length_of_two_mem haV hbV hab, blake3 ca, hvmem⟩, haV, hbV⟩
  · rintro hcc g hg ⟨hag, hbg⟩
    obtain ⟨s, bkt, hbk, hblen, hglen, h, hfold⟩ := mem_groupsOf.1 hg
    have hha := (mem_of_mem_groupFold hfold hag).2
    have hhb := (mem_of_mem_groupFold hfold hbg).2
    rw [hash_file_eq, hra, Option.map_some'] at hha
    rw [hash_file_eq, hrb, Option.map_some'] at hhb
    exact hcc (hinj (Option.some.inj (hha.trans hhb.symm)))

theorem claim_C1_witness :
    ("a" : Path) ≠ "b" ∧ wfs.read "a" = some [7] ∧ wfs.read "b" = some [7] ∧
      ∃ g ∈ groupsOf (id : Bytes → Bytes) wfs
        (group_by_size wfs ["a", "b", "c", "x"]), "a" ∈ g ∧ "b" ∈ g :=
  ⟨by decide, by decide, by decide,
    (claim_C1 id Function.injective_id wfs wfs_coherent ["a", "b", "c", "x"]
      "a" "b" (by decide) (by decide) (by decide) [7] [7] (by decide) (by decide)
      (by decide)).1 rfl⟩

/-- C4: determinism up to unordered-map iteration: any two runs of the
grouping stage over the same size-map contents produce the same multiset
of duplicate groups, each group with identical membership and member
order. -/
theorem claim_C4 {Digest : Type} [DecidableEq Digest] (blake3 : Bytes → Digest)
    (fs : FS) (sm : List (Nat × List Path)) (out₁ out₂ : List (List Path))
    (h₁ : RunOf blake3 fs sm out₁) (h₂ : RunOf blake3 fs sm out₂) :
    out₁.Perm out₂ :=
  (runOf_perm_groupsOf h₁).trans (runOf_perm_groupsOf h₂).symm

theorem claim_C4_witness :
    (groupsOf (id : Bytes → Bytes) wfs2
      [(1, ["a", "b"]), (2, ["d", "e"])]).Perm [["d", "e"], ["a", "b"]] := by
  have hrun2 : RunOf (id : Bytes → Bytes) wfs2 [(1, ["a", "b"]), (2, ["d", "e"])]
      [["d", "e"], ["a", "b"]] := by
    refine ⟨[(2, ["d", "e"]), (1, ["a", "b"])], [[["d", "e"]], [["a", "b"]]],
      by decide, ?_, rfl⟩
    show List.Forall₂ _ [(2, ["d", "e"]), (1, ["a", "b"])] _
    exact .cons (by decide) (.cons (by decide) .nil)
  exact claim_C4 id wfs2 [(1, ["a", "b"]), (2, ["d", "e"])] _ _
    (runOf_groupsOf id wfs2 [(1, ["a", "b"]), (2, ["d", "e"])]) hrun2

/-- C2 counterexample: a directory-listing failure on a subdirectory —
not on the root — still propagates out of the traversal (the `?` on the
recursive call at line 96), even though every entry metadata read
succeeded; the claim allows only root-level listing failures to
propagate. -/
theorem claim_C2_counterexample :
    collect_files true "root" (.dir (some [("root/sub", .dir none)])) =
      .error () := by
  simp [collect_files, collect_entries]

/-- C2 (amended): a directory-listing failure at any level reached by the
traversal propagates; per-entry metadata failures and per-file
content/hash read failures are absorbed by skipping the entry, and
whenever every reachable directory listing succeeds the scan completes
and produces a report. -/
theorem claim_C2_amended {Digest : Type} [DecidableEq Digest]
    (blake3 : Bytes → Digest) (fs : FS) (recursive : Bool) (rootPath : Path)
    (n : Node) (hex : pathExists (some n) = true)
    (hok : listingsOk recursive n = true) :
    ∃ out, run blake3 fs recursive rootPath (some n) = .ok out := by
  match n with
  | .badMeta => simp [pathExists] at hex
  | .other => exact ⟨([], []), by simp [run, collect_files]⟩
  | .file size =>
    by_cases hz : size = 0
    · exact ⟨([], [rootPath]), by simp [run, collect_files, hz]⟩
    · refine ⟨(groupsOf blake3 fs (group_by_size fs [rootPath]), []), ?_⟩
      simp [run, collect_files, hz, group_by_hash_eq]
  | .dir none => simp [listingsOk] at hok
  | .dir (some entries) =>
    have hok' : entriesOk recursive entries = true := by
      simpa [listingsOk] using hok
    have h := collect_entries_isOk recursive entries hok'
    obtain ⟨⟨fl, el⟩, hv⟩ : ∃ v, collect_entries recursive entries = .ok v := by
      cases hc : collect_entries recursive entries with
      | error e => rw [hc] at h; simp [Except.isOk, Except.toBool] at h
      | ok v => exact ⟨v, rfl⟩
    by_cases hfl : fl.isEmpty
    · exact ⟨([], el), by simp [run, collect_files, hv, hfl]⟩
    · exact ⟨(groupsOf blake3 fs (group_by_size fs fl), el),
        by simp [run, collect_files, hv, hfl, group_by_hash_eq]⟩

theorem claim_C2_amended_witness :
    pathExists (some (.dir (some [("a", .file 1), ("bad", .badMeta),
        ("s", .dir (some [("z", .other)]))]))) = true ∧
      listingsOk true (.dir (some [("a", .file 1), ("bad", .badMeta),
        ("s", .dir (some [("z", .other)]))])) = true ∧
      ∃ out, run (id : Bytes → Bytes) fsNone true "r"
        (some (.dir (some [("a", .file 1), ("bad", .badMeta),
          ("s", .dir (some [("z", .other)]))]))) = .ok out :=
  ⟨rfl, by simp [listingsOk, entriesOk],
    claim_C2_amended id fsNone true "r" _ rfl (by simp [listingsOk, entriesOk])⟩

/-- C3 counterexample: a root that exists but is neither a regular file
nor a directory (e.g. a socket) passes the `parse_args` existence check
and the traversal succeeds with empty results instead of failing with a
path-not-found condition. -/
theorem claim_C3_counterexample :
    run (id : Bytes → Bytes) fsNone false "root" (some .other) =
      .ok ([], []) := by
  simp [run, collect_files]

/-- C3 (amended): a root path that does not exist (or cannot be stat'ed)
makes the run fail before any traversal; but a root that exists while
being neither a regular file nor a directory is not rejected — the
traversal returns no files and the run succeeds with an empty report. -/
theorem claim_C3_amended {Digest : Type} [DecidableEq Digest]
    (blake3 : Bytes → Digest) (fs : FS) (recursive : Bool) (rootPath : Path) :
    run blake3 fs recursive rootPath none = .error () ∧
      run blake3 fs recursive rootPath (some .badMeta) = .error () ∧
      run blake3 fs recursive rootPath (some .other) = .ok ([], []) := by
  refine ⟨rfl, rfl, ?_⟩
  simp [run, collect_files]

/-- C7: a zero-length regular file visited by the traversal lands in the
empty-file list, is never passed to `hash_file`, and appears in no
duplicate group (paths produced by a real traversal are distinct, which
the `Nodup` hypothesis records). -/
theorem claim_C7 {Digest : Type} [DecidableEq Digest] (blake3 : Bytes → Digest)
    (fs : FS) (recursive : Bool) (rootPath : Path) (n : Node)
    (files empties : List Path)
    (hc : collect_files recursive rootPath n = .ok (files, empties))
    (hnd : (files ++ empties).Nodup) (p : Path)
    (hv : (p, 0) ∈ visitedFiles recursive rootPath n) :
    p ∈ empties ∧ p ∉ hashedPaths (group_by_size fs files) ∧
      ∀ g ∈ groupsOf blake3 fs (group_by_size fs files), p ∉ g := by
  have hpe : p ∈ empties := by
    match n with
    | .file size =>
      have hps : p = rootPath ∧ 0 = size := by
        simpa [visitedFiles] using hv
      obtain ⟨rfl, hz⟩ := hps
      rw [collect_files, if_pos hz.symm] at hc
      obtain ⟨-, he⟩ : ([] : List Path) = files ∧ [p] = empties := by simpa using hc
      rw [← he]
      exact List.mem_singleton.2 rfl
    | .dir none => simp [collect_files] at hc
    | .dir (some entries) =>
      rw [collect_files] at hc
      exact visited_zero_mem_empties recursive entries files empties hc p
        (by simpa [visitedFiles] using hv)
    | .badMeta => simp [visitedFiles] at hv
    | .other => simp [visitedFiles] at hv
  have hpf : p ∉ files := by
    intro hpf
    exact (List.nodup_append.1 hnd).2.2 hpf hpe
  refine ⟨hpe, fun hh => hpf (hashedPaths_subset hh), ?_⟩
  intro g hg hpg
  obtain ⟨s, h, hpf', -, -⟩ := mem_group_facts hg hpg
  exact hpf hpf'

theorem claim_C7_witness :
    ("z" : Path) ∈ ["z"] ∧
      "z" ∉ hashedPaths (group_by_size wfs ["a", "b"]) ∧
      ∀ g ∈ groupsOf (id : Bytes → Bytes) wfs (group_by_size wfs ["a", "b"]),
        "z" ∉ g :=
  claim_C7 id wfs false "r"
    (.dir (some [("a", .file 1), ("b", .file 1), ("z", .file 0)]))
    ["a", "b"] ["z"] (by simp [collect_files, collect_entries]) (by decide)
    "z" (by simp [visitedFiles, visitedEntries])

end Sorty
